import Mathlib

/-!
Shallow embedding of the core IR of the `eir` compiler middle-end
(`libeir_ir`) and of the driver loop of its CFG-simplification pass
(`libeir_passes/simplify_cfg`), with theorems settling the specification
claims about them.

Arena handles (`Block`, `Value`, `PrimOp`, `Location`, `LocationTerminal`)
are dense integers in the source (`entity_impl!` over `u32`); they are
embedded as `Nat`.  `EntityList<T>` values resolved through their
`ListPool` are embedded directly as `List T` (the pool is an encoding of
lists; every observation in the source goes through `as_slice`).
`cranelift_bforest::Set<Block>` values are embedded as `Finset Nat`.
-/

namespace Eir

/-- Arena handle for blocks (`Block(u32)` in `function/mod.rs`). -/
abbrev Block := Nat
/-- Arena handle for values (`Value(u32)` in `function/value.rs`). -/
abbrev Value := Nat
/-- Arena handle for primops (`PrimOp(u32)` in `function/mod.rs`). -/
abbrev PrimOp := Nat
/-- Arena handle for locations (`Location(u32)` in `function/location.rs`). -/
abbrev Location := Nat
/-- Arena handle for location terminals (`LocationTerminal(u32)`). -/
abbrev LocationTerminal := Nat

/-- Modelled from the spec: the source-span service is an external
collaborator (`libeir_diagnostics`, not under the sources).  A span is an
opaque pair of indices with a distinguished `UNKNOWN` span. -/
structure SourceSpan where
  startIdx : Nat
  endIdx : Nat
deriving DecidableEq, Repr, Inhabited

/-- `SourceSpan::UNKNOWN`. -/
def SourceSpan.unknown : SourceSpan := ⟨0, 0⟩

/-- Modelled from the spec: the dedup primary store of §4.1
(`DedupPrimaryMap` / `DedupAuxPrimaryMap` from `libeir_util_datastructures`,
not under the sources): `push(data, aux) -> id`; if an entry equal to
`data` already exists, its id is returned, otherwise `data` is appended at
a fresh id.  Entry equality (the `AuxEq` instance, slices resolved through
the aux pool) is the `DecidableEq` of the embedded entry type. -/
def dedupIdx {α : Type} [DecidableEq α] (xs : List α) (x : α) : Option Nat :=
  match xs with
  | [] => none
  | y :: ys => if y = x then some 0 else (dedupIdx ys x).map (· + 1)

/-- Modelled from the spec: `push` of the dedup primary store of §4.1. -/
def dedupPush {α : Type} [DecidableEq α] (xs : List α) (x : α) : Nat × List α :=
  match dedupIdx xs x with
  | some i => (i, xs)
  | none => (xs.length, xs ++ [x])

/-- `LocationTerminalData` (`function/location.rs`). -/
structure LocationTerminalData where
  file : Option String
  line : Option Nat
  names : Option (String × String)
  span : SourceSpan
deriving DecidableEq, Repr, Inhabited

/-- `LocationData` (`function/location.rs`): an `EntityList<LocationTerminal>`
resolved through `terminal_pool`, embedded as the list of terminals.  The
`AuxEq` instance compares the resolved slices, i.e. these lists. -/
structure LocationData where
  terminals : List LocationTerminal
deriving DecidableEq, Repr, Inhabited

/-- `LocationContainer` (`function/location.rs`): a dedup map of terminals
and a dedup map of locations.  The `terminal_pool` is absorbed into the
`List` representation of `LocationData`. -/
structure LocationContainer where
  terminals : List LocationTerminalData
  locations : List LocationData
deriving Repr, Inhabited

namespace LocationContainer

/-- `LocationContainer::new()`. -/
def new : LocationContainer := ⟨[], []⟩

/-- `LocationContainer::lookup`: the source spans of the location's
terminals, in order. -/
def lookup (c : LocationContainer) (loc : Location) : List SourceSpan :=
  (c.locations.getD loc default).terminals.map
    (fun t => (c.terminals.getD t default).span)

/-- `LocationContainer::location_empty`: interns a `LocationData` with an
empty terminal list. -/
def location_empty (c : LocationContainer) : Location × LocationContainer :=
  let (loc, locations) := dedupPush c.locations ⟨[]⟩
  (loc, { c with locations })

/-- `LocationContainer::location_unknown`: pushes an all-`None` terminal
with span `UNKNOWN` into the terminal map, builds a local terminal list
holding it, but then interns a `LocationData` with `EntityList::new()` —
the freshly built list is discarded. -/
def location_unknown (c : LocationContainer) : Location × LocationContainer :=
  let (_terminal, terminals) :=
    dedupPush c.terminals ⟨none, none, none, SourceSpan.unknown⟩
  let (loc, locations) := dedupPush c.locations ⟨[]⟩
  (loc, { terminals, locations })

/-- `LocationContainer::location`: interns a terminal carrying
`(file, line, names, span)` and a location holding exactly it. -/
def location (c : LocationContainer) (file : Option String) (line : Option Nat)
    (names : Option (String × String)) (span : SourceSpan) :
    Location × LocationContainer :=
  let (terminal, terminals) := dedupPush c.terminals ⟨file, line, names, span⟩
  let (loc, locations) := dedupPush c.locations ⟨[terminal]⟩
  (loc, { terminals, locations })

/-- `LocationContainer::concat_locations`: interns a location whose
terminal list is `bottom`'s terminals followed by `top`'s. -/
def concat_locations (c : LocationContainer) (bottom top : Location) :
    Location × LocationContainer :=
  let terminals :=
    (c.locations.getD bottom default).terminals
      ++ (c.locations.getD top default).terminals
  let (loc, locations) := dedupPush c.locations ⟨terminals⟩
  (loc, { c with locations })

end LocationContainer

/-- Modelled from the spec: `PrimOpKind` (`function/primop.rs` is not under
the sources) — §3: `ValueList`, `Tuple`, `BinOp(kind)`, `LogicOp(kind)`,
`CaptureFunction`.  The binop/logicop payloads are opaque tags. -/
inductive PrimOpKind where
  | ValueList
  | Tuple
  | BinOp (op : Nat)
  | LogicOp (op : Nat)
  | CaptureFunction
deriving DecidableEq, Repr, Inhabited

/-- Modelled from the spec: `CallKind` (§3) — `Function | ControlFlow`. -/
inductive CallKind where
  | Function
  | ControlFlow
deriving DecidableEq, Repr

/-- Modelled from the spec: `MatchKind` (§3); `Type`'s basic type and the
binary spec are opaque tags. -/
inductive MatchKind where
  | Value
  | Type (t : Nat)
  | Binary (spec : Nat)
  | Tuple (arity : Nat)
  | ListCell
  | MapItem
  | Wildcard
deriving DecidableEq, Repr

/-- Modelled from the spec: `MapPutUpdate` (§3) — `Put | Update`. -/
inductive MapPutUpdate where
  | Put
  | Update
deriving DecidableEq, Repr

/-- Modelled from the spec: `OpKind` (`function/op.rs` is not under the
sources) — §3 terminator variants; `Dyn`'s opaque dialect descriptor is a
tag. -/
inductive OpKind where
  | Call (kind : CallKind)
  | Match (branches : List MatchKind)
  | IfBool
  | UnpackValueList (n : Nat)
  | MapPut (action : MapPutUpdate)
  | TraceCaptureRaw
  | TraceConstruct
  | Unreachable
  | Intrinsic (name : String)
  | Dyn (op : Nat)
deriving DecidableEq, Repr

/-- Modelled from the spec: `ValueKind` (`function/value.rs` is not under
the sources) — §3: `Block(b)`, `Argument(b, n)`, `Const(c)`, `PrimOp(p)`. -/
inductive ValueKind where
  | Block (b : Block)
  | Argument (b : Block) (n : Nat)
  | Const (c : Nat)
  | PrimOp (p : PrimOp)
deriving DecidableEq, Repr

instance : Inhabited ValueKind := ⟨.Const 0⟩

/-- Modelled from the spec: the per-value data of the value map (§4.3) —
`kind`, optional `location`, `usages : Set<Block>`. -/
structure ValueData where
  kind : ValueKind
  location : Option Location
  usages : Finset Nat
deriving DecidableEq, Inhabited

/-- `PrimOpData` (`function/mod.rs`): a kind and an
`EntityList<Value>` of operand reads, embedded as a list.  Its
`AuxHash`/`AuxEq` instances compare `(op, reads-slice)`, which is exactly
structural equality of this embedding. -/
structure PrimOpData where
  op : PrimOpKind
  reads : List Value
deriving DecidableEq, Repr

instance : Inhabited PrimOpData := ⟨⟨.Tuple, []⟩⟩

/-- `BlockData` (`function/mod.rs`). -/
structure BlockData where
  arguments : List Value
  op : Option OpKind
  reads : List Value
  location : Location
  predecessors : Finset Nat
  successors : Finset Nat

instance : Inhabited BlockData := ⟨⟨[], none, [], 0, ∅, ∅⟩⟩

/-- `Function` (`function/mod.rs`), restricted to the fields the claims
touch: the block arena, the value map, the primop dedup arena and the
location container.  The list pools are absorbed into the `List`
representations. -/
structure Function where
  entry_block : Option Block
  blocks : List BlockData
  values : List ValueData
  primops : List PrimOpData
  locations : LocationContainer

namespace Function

/-- `Function::value_kind`. -/
def value_kind (f : Function) (value : Value) : ValueKind :=
  (f.values.getD value default).kind

/-- `Function::primop_kind`. -/
def primop_kind (f : Function) (primop : PrimOp) : PrimOpKind :=
  (f.primops.getD primop default).op

/-- `Function::primop_reads`. -/
def primop_reads (f : Function) (primop : PrimOp) : List Value :=
  (f.primops.getD primop default).reads

/-- `Function::block_args`. -/
def block_args (f : Function) (block : Block) : List Value :=
  (f.blocks.getD block default).arguments

/-- `Function::block_reads`. -/
def block_reads (f : Function) (block : Block) : List Value :=
  (f.blocks.getD block default).reads

/-- `Function::block_kind`. -/
def block_kind (f : Function) (block : Block) : Option OpKind :=
  (f.blocks.getD block default).op

/-- `Function::value_argument`: the definition block and argument position
when the value is an argument. -/
def value_argument (f : Function) (value : Value) : Option (Block × Nat) :=
  match f.value_kind value with
  | .Argument block arg => some (block, arg)
  | _ => none

/-- `Function::value_block`. -/
def value_block (f : Function) (value : Value) : Option Block :=
  match f.value_kind value with
  | .Block block => some block
  | _ => none

/-- `Function::value_list_length`: the operand count when the value is a
`ValueList` primop, else 1. -/
def value_list_length (f : Function) (value : Value) : Nat :=
  match f.value_kind value with
  | .PrimOp prim =>
    match f.primop_kind prim with
    | .ValueList => (f.primop_reads prim).length
    | _ => 1
  | _ => 1

/-- `Function::value_list_get_n`: the n-th operand when the value is a
`ValueList` primop (`reads.get(n).cloned()`), else `Some(value)` for
`n = 0` and `None` otherwise. -/
def value_list_get_n (f : Function) (value : Value) (n : Nat) : Option Value :=
  match f.value_kind value with
  | .PrimOp prim =>
    match f.primop_kind prim with
    | .ValueList => (f.primop_reads prim)[n]?
    | _ => if n = 0 then some value else none
  | _ => if n = 0 then some value else none

end Function

/-- First id in the value arena whose kind equals `k`, if any. -/
def internIdx (vs : List ValueData) (k : ValueKind) : Option Nat :=
  match vs with
  | [] => none
  | v :: rest => if v.kind = k then some 0 else (internIdx rest k).map (· + 1)

/-- Modelled from the spec: `ValueMap::push` (`function/value.rs` is not
under the sources) — §4.3: interns `ValueKind → Value`; inserting the same
kind twice returns the same `Value`; a fresh value starts with no location
and no usages. -/
def valuesPush (vs : List ValueData) (k : ValueKind) : Value × List ValueData :=
  match internIdx vs k with
  | some i => (i, vs)
  | none => (vs.length, vs ++ [⟨k, none, ∅⟩])

namespace Function

/-- `Function::block_arg_insert` (`function/mod.rs`): reads the current
argument count, interns an `Argument(block, arg_num)` value, and appends
it to the block's argument list. -/
def block_arg_insert (f : Function) (block : Block) : Value × Function :=
  let arg_num := (f.blocks.getD block default).arguments.length
  let (val, values) := valuesPush f.values (.Argument block arg_num)
  let bd := f.blocks.getD block default
  let blocks := f.blocks.set block { bd with arguments := bd.arguments ++ [val] }
  (val, { f with values, blocks })

/-- Modelled from the spec: insertion into `Function::primops`
(`DedupAuxPrimaryMap`, `libeir_util_datastructures` is not under the
sources; the builder's `prim_*` constructors push through it) — §4.1: the
dedup store returns the existing id when a structurally equal entry is
inserted. -/
def primops_push (f : Function) (d : PrimOpData) : PrimOp × Function :=
  let (p, primops) := dedupPush f.primops d
  (p, { f with primops })

/-! ### Graph validation (`graph_validate_block` / `graph_validate_global`)

`block_walk_nested_values` visits every read of the block's terminator
and, recursively, every operand of every nested primop.  The assertions of
`graph_validate_block` and its collected `successors_set` only depend on
the *set* of visited values, so the walk is embedded as the closure of the
read set under primop-operand expansion; in the source the nesting depth
is bounded by the (append-only, acyclic) value arena, so iterating the
expansion once per value reaches the closure. -/

/-- One expansion step of `value_walk_nested_values`: the operands of `v`
when `v` is a primop value. -/
def valueExpand (f : Function) (v : Value) : Finset Nat :=
  match f.value_kind v with
  | .PrimOp p => (f.primop_reads p).toFinset
  | _ => ∅

def nestedStep (f : Function) (s : Finset Nat) : Finset Nat :=
  s ∪ s.biUnion (valueExpand f)

/-- The set of values visited by `block_walk_nested_values` on `block`'s
terminator reads. -/
def blockNestedValues (f : Function) (block : Block) : Finset Nat :=
  (nestedStep f)^[f.values.length + 1] (f.block_reads block).toFinset

/-- The blocks reachable by a one-step terminator read: the `Block`-valued
operands among the nested values (the `successors_set` collected by
`graph_validate_block`). -/
def oneStepBlocks (f : Function) (block : Block) : Finset Nat :=
  (blockNestedValues f block).biUnion (fun v =>
    match f.value_kind v with
    | .Block succ => {succ}
    | _ => ∅)

/-- The per-value assertion of `graph_validate_block`: a `Block`-valued
operand must be in the owning block's `successors`, and the owning block
in that successor's `predecessors`. -/
def blockCheck (f : Function) (block : Block) (v : Value) : Bool :=
  match f.value_kind v with
  | .Block succ =>
    decide (succ ∈ (f.blocks.getD block default).successors)
      && decide (block ∈ (f.blocks.getD succ default).predecessors)
  | _ => true

/-- `Function::graph_validate_block` (`function/mod.rs`), as a boolean:
true iff no assertion fires.  The final assertion compares the size of the
`successors` set against the number of distinct collected successors. -/
def graph_validate_block (f : Function) (block : Block) : Bool :=
  decide (∀ v ∈ blockNestedValues f block, blockCheck f block v = true)
    && decide ((f.blocks.getD block default).successors.card
        = (oneStepBlocks f block).card)

/-- `Function::graph_validate_global` (`function/mod.rs`): validates every
block of the arena. -/
def graph_validate_global (f : Function) : Bool :=
  (List.range f.blocks.length).all (fun block => graph_validate_block f block)

end Function

/-- Invariant (1) as claim C1 states it, following the spec's words:
every one-step-read block is in the owning block's `successors`, the block
is in each such successor's `predecessors`, and both sets are *exactly*
the one-step sets — no extra entries in either. -/
def invariant1_claimed (f : Function) : Prop :=
  ∀ b < f.blocks.length,
    (f.blocks.getD b default).successors = Function.oneStepBlocks f b
    ∧ (f.blocks.getD b default).predecessors
      = (Finset.range f.blocks.length).filter
          (fun p => b ∈ Function.oneStepBlocks f p)

/-- Invariant (2): every interned `Argument(b, n)` value is the n-th entry
of block `b`'s argument list. -/
def ArgInv (f : Function) : Prop :=
  ∀ v b n, v < f.values.length →
    (f.values.getD v default).kind = .Argument b n →
    (f.block_args b)[n]? = some v

/-- Invariant (3), PrimOps are canonical: the primop arena holds no two
structurally equal entries. -/
def PrimopsCanonical (f : Function) : Prop :=
  f.primops.Nodup

/-! ### The simplify_cfg driver loop (`simplify_cfg/mod.rs`)

`simplify_cfg` collects `graph.dfs_post_order_iter()` of the live-block
graph into `block_order` and then, iterating `block_order`, processes
exactly the blocks that are targets of discovered chain trees
(`analysis.trees`).  The live-block graph is abstracted to its entry and
successor lists; `dfs_post_order_iter` (whose implementation lives in the
graph module, not under the sources) is modelled from the spec as a
depth-first traversal from the entry emitting each block after its
successors. -/

structure BlockGraph where
  numBlocks : Nat
  entry : Nat
  succs : Nat → List Nat

/-- Fueled DFS work-list: processes a list of roots against a visited set,
emitting each newly visited node after its successors.  One unit of fuel
is consumed per processed list entry, so any fuel bounding the total
number of processed entries is adequate. -/
def dfsPostList (g : BlockGraph) : Nat → List Nat → List Nat → List Nat × List Nat
  | 0, vis, _ => (vis, [])
  | _ + 1, vis, [] => (vis, [])
  | fuel + 1, vis, n :: rest =>
    if n ∈ vis then dfsPostList g fuel vis rest
    else
      let r1 := dfsPostList g fuel (n :: vis) (g.succs n)
      let r2 := dfsPostList g fuel r1.1 rest
      (r2.1, r1.2 ++ [n] ++ r2.2)

/-- Modelled from the spec: `dfs_post_order_iter()` on the live-block
graph (§4.7 step 3 processes chains "in post-order of the CFG").  The fuel
bounds the entries ever put on work lists: at most `numBlocks` visits,
each contributing a successor list of length at most `numBlocks`. -/
def dfs_post_order (g : BlockGraph) : List Nat :=
  (dfsPostList g (g.numBlocks * g.numBlocks + 2 * g.numBlocks + 2) [] [g.entry]).2

def reverse_post_order (g : BlockGraph) : List Nat :=
  (dfs_post_order g).reverse

/-- The order in which `SimplifyCfgPass::simplify_cfg` processes chain
targets: it folds over `block_order` (the collected DFS post-order) and
handles a block exactly when it is a discovered tree target
(`analysis.trees.get(block)`). -/
def simplify_processed_targets (g : BlockGraph) (trees : List Nat) : List Nat :=
  (dfs_post_order g).foldl
    (fun acc block => if block ∈ trees then acc ++ [block] else acc) []

/-! ### Concrete instances -/

/-- A small concrete function: two blocks, a control-flow call terminator
on block 0 reading block 1's value and a value list, one argument on
block 1, a `ValueList` primop and a `Tuple` primop. -/
def sampleFun : Function where
  entry_block := some 0
  blocks :=
    [⟨[], some (.Call .ControlFlow), [1, 4], 0, ∅, {1}⟩,
     ⟨[2], none, [], 0, {0}, ∅⟩]
  values :=
    [⟨.Block 0, none, ∅⟩,
     ⟨.Block 1, none, {0}⟩,
     ⟨.Argument 1 0, none, ∅⟩,
     ⟨.Const 0, none, {0}⟩,
     ⟨.PrimOp 0, none, {0}⟩,
     ⟨.PrimOp 1, none, ∅⟩]
  primops := [⟨.ValueList, [3, 2]⟩, ⟨.Tuple, [3]⟩]
  locations := LocationContainer.new

/-- A function whose graph passes `graph_validate_global` while block 1's
`predecessors` set carries the extra entry 2, a block that does not read
block 1's value: block 0 reads block 1's block-value, block 2 reads
nothing. -/
def cexFun : Function where
  entry_block := some 0
  blocks :=
    [⟨[], some (.Call .ControlFlow), [0], 0, ∅, {1}⟩,
     ⟨[], some .Unreachable, [], 0, {0, 2}, ∅⟩,
     ⟨[], some .Unreachable, [], 0, ∅, ∅⟩]
  values := [⟨.Block 1, none, {0}⟩]
  primops := []
  locations := LocationContainer.new

/-- A live-block graph on which DFS post-order and reverse post-order
differ on chain targets: the entry branches to targets 1 and 2. -/
def cexGraph : BlockGraph where
  numBlocks := 3
  entry := 0
  succs n := match n with
    | 0 => [1, 2]
    | _ => []

def cexTrees : List Nat := [1, 2]

/-! ## Theorems -/

theorem dedupIdx_getD {α : Type} [DecidableEq α] [Inhabited α]
    {xs : List α} {x : α} {i : Nat} (h : dedupIdx xs x = some i) :
    xs.getD i default = x := by
  induction xs generalizing i with
  | nil => simp [dedupIdx] at h
  | cons y ys ih =>
    by_cases hy : y = x
    · simp [dedupIdx, hy] at h
      subst h
      simpa using hy
    · simp [dedupIdx, hy] at h
      obtain ⟨j, hj, rfl⟩ := h
      simpa using ih hj

theorem dedupIdx_lt {α : Type} [DecidableEq α]
    {xs : List α} {x : α} {i : Nat} (h : dedupIdx xs x = some i) :
    i < xs.length := by
  induction xs generalizing i with
  | nil => simp [dedupIdx] at h
  | cons y ys ih =>
    by_cases hy : y = x
    · simp only [dedupIdx, if_pos hy, Option.some.injEq] at h
      subst h
      simp
    · simp [dedupIdx, hy] at h
      obtain ⟨j, hj, rfl⟩ := h
      have := ih hj
      simp only [List.length_cons]
      omega

theorem dedupIdx_append_singleton {α : Type} [DecidableEq α]
    {xs : List α} {x : α} (h : dedupIdx xs x = none) :
    dedupIdx (xs ++ [x]) x = some xs.length := by
  induction xs with
  | nil => simp [dedupIdx]
  | cons y ys ih =>
    by_cases hy : y = x
    · simp [dedupIdx, hy] at h
    · have h' : dedupIdx ys x = none := by
        simpa [dedupIdx, hy] using h
      simp [dedupIdx, hy, ih h']

/-- After `dedupPush`, the entry stored at the returned id equals the
pushed entry (whether the entry was found or freshly appended). -/
theorem dedupPush_getD {α : Type} [DecidableEq α] [Inhabited α]
    (xs : List α) (x : α) :
    ((dedupPush xs x).2).getD (dedupPush xs x).1 default = x := by
  unfold dedupPush
  cases h : dedupIdx xs x with
  | some i => simpa using dedupIdx_getD h
  | none => simp

/-- `dedupPush` never shrinks the store and existing entries keep their
ids: lookups below the old length are unchanged. -/
theorem dedupPush_getD_old {α : Type} [DecidableEq α] [Inhabited α]
    (xs : List α) (x : α) {j : Nat} (hj : j < xs.length) :
    ((dedupPush xs x).2).getD j default = xs.getD j default := by
  unfold dedupPush
  cases h : dedupIdx xs x with
  | some i => simp
  | none =>
    simp only
    rw [List.getD_eq_getElem?_getD, List.getD_eq_getElem?_getD,
      List.getElem?_append_left hj]

/-- Pushing the same entry into the store a second time finds it at the
id the first push returned. -/
theorem dedupPush_idempotent_id {α : Type} [DecidableEq α]
    (xs : List α) (x : α) :
    dedupIdx (dedupPush xs x).2 x = some (dedupPush xs x).1 := by
  unfold dedupPush
  cases h : dedupIdx xs x with
  | some i => simpa using h
  | none => simpa using dedupIdx_append_singleton h

theorem dedupPush_of_idx_some {α : Type} [DecidableEq α]
    {xs : List α} {x : α} {i : Nat} (h : dedupIdx xs x = some i) :
    dedupPush xs x = (i, xs) := by
  unfold dedupPush
  rw [h]

/-- C6: for all locations `bottom` and `top` in a `LocationContainer`,
`lookup (concat_locations bottom top)` equals `lookup bottom` followed by
`lookup top`: concatenation appends the terminals of `top` after those of
`bottom`, and `lookup` returns the source spans of the terminals in that
order. -/
theorem concat_locations_lookup (c : LocationContainer) (bottom top : Location) :
    ((c.concat_locations bottom top).2.locations.getD
        (c.concat_locations bottom top).1 default).terminals
      = (c.locations.getD bottom default).terminals
        ++ (c.locations.getD top default).terminals
    ∧ (c.concat_locations bottom top).2.lookup (c.concat_locations bottom top).1
      = c.lookup bottom ++ c.lookup top := by
  unfold LocationContainer.concat_locations LocationContainer.lookup
  constructor
  · simpa using congrArg LocationData.terminals
      (dedupPush_getD c.locations
        ⟨(c.locations.getD bottom default).terminals
          ++ (c.locations.getD top default).terminals⟩)
  · have hstored := dedupPush_getD c.locations
      ⟨(c.locations.getD bottom default).terminals
        ++ (c.locations.getD top default).terminals⟩
    simp only [hstored]
    simp

/-- C7: `location_unknown()` constructs an unknown terminal but discards
it: the `Location` it returns has an empty terminal list, so `lookup` on
it yields an empty list of source spans. -/
theorem location_unknown_discards_terminal (c : LocationContainer) :
    ((c.location_unknown).2.locations.getD (c.location_unknown).1
        default).terminals = []
    ∧ (c.location_unknown).2.lookup (c.location_unknown).1 = [] := by
  unfold LocationContainer.location_unknown LocationContainer.lookup
  have hstored := dedupPush_getD c.locations (⟨[]⟩ : LocationData)
  constructor
  · simpa using congrArg LocationData.terminals hstored
  · simp only [hstored]
    simp

/-- C9: in any `LocationContainer`, `location_unknown()` and
`location_empty()` intern the same empty-terminals `LocationData`, so
calling one after the other — in either order — yields identical
`Location` handles. -/
theorem location_unknown_eq_location_empty (c : LocationContainer) :
    ((c.location_empty).2.location_unknown).1 = (c.location_empty).1
    ∧ ((c.location_unknown).2.location_empty).1 = (c.location_unknown).1 := by
  constructor
  · unfold LocationContainer.location_empty LocationContainer.location_unknown
    simp only
    rw [dedupPush_of_idx_some (dedupPush_idempotent_id c.locations ⟨[]⟩)]
  · unfold LocationContainer.location_empty LocationContainer.location_unknown
    simp only
    rw [dedupPush_of_idx_some (dedupPush_idempotent_id c.locations ⟨[]⟩)]

/-- C5: for every value `v` in a `Function`, `value_list_length v` is the
operand count when `v` is a `ValueList` primop and 1 otherwise, and
`value_list_get_n` returns the n-th operand of a `ValueList` primop, while
for any other value `value_list_get_n v 0` is `v` itself. -/
theorem value_list_ops (f : Function) (v : Value) (_hv : v < f.values.length) :
    (∀ p, f.value_kind v = .PrimOp p → f.primop_kind p = .ValueList →
        f.value_list_length v = (f.primop_reads p).length
        ∧ ∀ n, f.value_list_get_n v n = (f.primop_reads p)[n]?)
    ∧ ((∀ p, f.value_kind v = .PrimOp p → f.primop_kind p ≠ .ValueList) →
        f.value_list_length v = 1 ∧ f.value_list_get_n v 0 = some v) := by
  constructor
  · intro p hp hvl
    simp [Function.value_list_length, Function.value_list_get_n, hp, hvl]
  · intro hnvl
    unfold Function.value_list_length Function.value_list_get_n
    cases hk : f.value_kind v with
    | PrimOp p =>
      cases hpk : f.primop_kind p with
      | ValueList => exact absurd hpk (hnvl p hk)
      | Tuple => simp [hpk]
      | BinOp o => simp [hpk]
      | LogicOp o => simp [hpk]
      | CaptureFunction => simp [hpk]
    | Block b => simp
    | Argument b n => simp
    | Const c => simp

theorem sampleFunNotVL :
    ∀ p, sampleFun.value_kind 5 = .PrimOp p →
      sampleFun.primop_kind p ≠ .ValueList := by
  intro p hp
  have h1 : sampleFun.value_kind 5 = ValueKind.PrimOp 1 := rfl
  rw [h1] at hp
  injection hp with h2
  subst h2
  decide

theorem value_list_ops_witness :
    sampleFun.value_list_length 4 = (sampleFun.primop_reads 0).length
    ∧ sampleFun.value_list_get_n 4 1 = (sampleFun.primop_reads 0)[1]?
    ∧ sampleFun.value_list_length 5 = 1
    ∧ sampleFun.value_list_get_n 5 0 = some 5 :=
  ⟨((value_list_ops sampleFun 4 (by decide)).1 0 (by decide) (by decide)).1,
   ((value_list_ops sampleFun 4 (by decide)).1 0 (by decide) (by decide)).2 1,
   ((value_list_ops sampleFun 5 (by decide)).2 sampleFunNotVL).1,
   ((value_list_ops sampleFun 5 (by decide)).2 sampleFunNotVL).2⟩

/-- C10: `value_list_get_n v n` is `None` exactly when either `n ≥ 1` and
`v` is not a `ValueList` primop, or `v` is a `ValueList` primop with at
most `n` operands; it is total for every value of the function and every
`n`. -/
theorem value_list_get_n_none_iff (f : Function) (v : Value) (n : Nat)
    (_hv : v < f.values.length) :
    f.value_list_get_n v n = none ↔
      ((∀ p, f.value_kind v = .PrimOp p → f.primop_kind p ≠ .ValueList) ∧ 1 ≤ n)
      ∨ ∃ p, f.value_kind v = .PrimOp p ∧ f.primop_kind p = .ValueList
          ∧ (f.primop_reads p).length ≤ n := by
  unfold Function.value_list_get_n
  cases hk : f.value_kind v with
  | PrimOp p =>
    cases hpk : f.primop_kind p with
    | ValueList => simp [hpk]
    | Tuple => simp [hpk]; omega
    | BinOp o => simp [hpk]; omega
    | LogicOp o => simp [hpk]; omega
    | CaptureFunction => simp [hpk]; omega
  | Block b => simp; omega
  | Argument b m => simp; omega
  | Const c => simp; omega

theorem internIdx_getD {vs : List ValueData} {k : ValueKind} {i : Nat}
    (h : internIdx vs k = some i) : (vs.getD i default).kind = k := by
  induction vs generalizing i with
  | nil => simp [internIdx] at h
  | cons v rest ih =>
    by_cases hv : v.kind = k
    · simp only [internIdx, if_pos hv, Option.some.injEq] at h
      subst h
      simpa using hv
    · simp [internIdx, hv] at h
      obtain ⟨j, hj, rfl⟩ := h
      simpa using ih hj

theorem internIdx_lt {vs : List ValueData} {k : ValueKind} {i : Nat}
    (h : internIdx vs k = some i) : i < vs.length := by
  induction vs generalizing i with
  | nil => simp [internIdx] at h
  | cons v rest ih =>
    by_cases hv : v.kind = k
    · simp only [internIdx, if_pos hv, Option.some.injEq] at h
      subst h
      simp
    · simp [internIdx, hv] at h
      obtain ⟨j, hj, rfl⟩ := h
      have := ih hj
      simp only [List.length_cons]
      omega

/-- Under invariant (2) no `Argument(b, n)` value with `n` equal to the
current argument count of `b` is interned, so `block_arg_insert`'s
`values.push` allocates a fresh value. -/
theorem internIdx_arg_fresh (f : Function) (hinv : ArgInv f) (b : Block) :
    internIdx f.values
      (.Argument b (f.blocks.getD b default).arguments.length) = none := by
  cases h : internIdx f.values
      (.Argument b (f.blocks.getD b default).arguments.length) with
  | none => rfl
  | some i =>
    have hk := internIdx_getD h
    have hlt := internIdx_lt h
    have h1 := hinv i b (f.blocks.getD b default).arguments.length hlt hk
    have hlen := (List.getElem?_eq_some_iff.mp h1).1
    unfold Function.block_args at hlen
    omega

/-- C8: under invariant (2), every value of kind `Argument(b, n)` is the
n-th argument of block `b`, `value_argument` returns `Some((b, n))`, and
block `b` has at least `n + 1` arguments; `block_arg_insert` preserves the
invariant and the value it returns is the fresh last argument of `b`. -/
theorem block_arg_insert_ok (f : Function) (hinv : ArgInv f) :
    (∀ v b n, v < f.values.length →
        f.value_kind v = .Argument b n →
        (f.block_args b)[n]? = some v
        ∧ f.value_argument v = some (b, n)
        ∧ n + 1 ≤ (f.block_args b).length)
    ∧ ∀ b, b < f.blocks.length →
        ArgInv (f.block_arg_insert b).2
        ∧ (f.block_arg_insert b).2.value_argument (f.block_arg_insert b).1
          = some (b, (f.block_args b).length)
        ∧ ((f.block_arg_insert b).2.block_args b)[(f.block_args b).length]?
          = some (f.block_arg_insert b).1 := by
  constructor
  · intro v b n hv hk
    have h1 := hinv v b n hv hk
    refine ⟨h1, ?_, ?_⟩
    · unfold Function.value_argument
      rw [hk]
    · have := (List.getElem?_eq_some_iff.mp h1).1
      omega
  · intro b hb
    have hfresh := internIdx_arg_fresh f hinv b
    simp only [Function.block_arg_insert, valuesPush, hfresh,
      Function.block_args]
    refine ⟨?_, ?_, ?_⟩
    · intro v' b' n' hv' hk'
      simp only [List.length_append, List.length_cons, List.length_nil] at hv'
      simp only [Function.block_args]
      by_cases hvlt : v' < f.values.length
      · have hold : ((f.values
            ++ [({ kind := .Argument b (f.blocks.getD b default).arguments.length,
                   location := none, usages := ∅ } : ValueData)]).getD v' default)
            = f.values.getD v' default := by
          simp only [List.getD_eq_getElem?_getD, List.getElem?_append_left hvlt]
        rw [hold] at hk'
        have h1 := hinv v' b' n' hvlt hk'
        unfold Function.block_args at h1
        by_cases hbb : b' = b
        · subst hbb
          have hn : n' < (f.blocks.getD b' default).arguments.length :=
            (List.getElem?_eq_some_iff.mp h1).1
          simp only [List.getD_eq_getElem?_getD] at h1 hn
          simp only [List.getD_eq_getElem?_getD,
            List.getElem?_set_self (l := f.blocks) (by exact hb),
            Option.getD_some]
          rw [List.getElem?_append_left hn]
          exact h1
        · simp only [List.getD_eq_getElem?_getD] at h1
          simp only [List.getD_eq_getElem?_getD,
            List.getElem?_set_ne (l := f.blocks) (fun h => hbb h.symm)]
          exact h1
      · have hv2 : v' = f.values.length := by omega
        subst hv2
        have hnew : ((f.values
            ++ [({ kind := .Argument b (f.blocks.getD b default).arguments.length,
                   location := none, usages := ∅ } : ValueData)]).getD
              f.values.length default)
            = ({ kind := .Argument b (f.blocks.getD b default).arguments.length,
                 location := none, usages := ∅ } : ValueData) := by
          simp only [List.getD_eq_getElem?_getD, List.getElem?_concat_length,
            Option.getD_some]
        rw [hnew] at hk'
        obtain ⟨rfl, rfl⟩ : b = b'
            ∧ (f.blocks.getD b default).arguments.length = n' := by
          cases hk'
          exact ⟨rfl, rfl⟩
        simp only [List.getD_eq_getElem?_getD,
          List.getElem?_set_self (l := f.blocks) (by exact hb),
          Option.getD_some]
        exact List.getElem?_concat_length _ _
    · unfold Function.value_argument Function.value_kind
      simp only [List.getD_eq_getElem?_getD, List.getElem?_concat_length,
        Option.getD_some]
    · simp only [List.getD_eq_getElem?_getD,
        List.getElem?_set_self (l := f.blocks) (by exact hb),
        Option.getD_some]
      exact List.getElem?_concat_length _ _

theorem sampleFunArgInv : ArgInv sampleFun := by
  intro v b n hv hk
  have hv6 : v < 6 := by simpa [sampleFun] using hv
  interval_cases v
  · simp [sampleFun, Function.value_kind] at hk
  · simp [sampleFun, Function.value_kind] at hk
  · simp [sampleFun, Function.value_kind] at hk
    obtain ⟨rfl, rfl⟩ := hk
    decide
  · simp [sampleFun, Function.value_kind] at hk
  · simp [sampleFun, Function.value_kind] at hk
  · simp [sampleFun, Function.value_kind] at hk

theorem block_arg_insert_ok_witness :
    (sampleFun.block_args 1)[0]? = some 2
    ∧ sampleFun.value_argument 2 = some (1, 0)
    ∧ ArgInv (sampleFun.block_arg_insert 0).2 :=
  ⟨((block_arg_insert_ok sampleFun sampleFunArgInv).1 2 1 0 (by decide)
      (by decide)).1,
   ((block_arg_insert_ok sampleFun sampleFunArgInv).1 2 1 0 (by decide)
      (by decide)).2.1,
   ((block_arg_insert_ok sampleFun sampleFunArgInv).2 0 (by decide)).1⟩

theorem value_list_get_n_none_iff_witness :
    (sampleFun.value_list_get_n 3 1 = none ↔
      ((∀ p, sampleFun.value_kind 3 = .PrimOp p →
          sampleFun.primop_kind p ≠ .ValueList) ∧ 1 ≤ 1)
      ∨ ∃ p, sampleFun.value_kind 3 = .PrimOp p
          ∧ sampleFun.primop_kind p = .ValueList
          ∧ (sampleFun.primop_reads p).length ≤ 1) :=
  value_list_get_n_none_iff sampleFun 3 1 (by decide)

theorem dedupIdx_isSome_of_mem {α : Type} [DecidableEq α]
    {xs : List α} {x : α} (h : x ∈ xs) : ∃ i, dedupIdx xs x = some i := by
  induction xs with
  | nil => simp at h
  | cons y ys ih =>
    by_cases hy : y = x
    · exact ⟨0, by simp [dedupIdx, hy]⟩
    · have hmem : x ∈ ys := by
        cases List.mem_cons.mp h with
        | inl h1 => exact absurd h1.symm hy
        | inr h2 => exact h2
      obtain ⟨j, hj⟩ := ih hmem
      exact ⟨j + 1, by simp [dedupIdx, hy, hj]⟩

theorem dedupIdx_none_not_mem {α : Type} [DecidableEq α]
    {xs : List α} {x : α} (h : dedupIdx xs x = none) : x ∉ xs := by
  intro hmem
  obtain ⟨i, hi⟩ := dedupIdx_isSome_of_mem hmem
  rw [h] at hi
  cases hi

/-- C2: if the primop arena is canonical (holds no two structurally equal
entries, the invariant the dedup store maintains), then two primops with
equal kind and equal operand sequence are the same id; inserting an entry
structurally equal to an existing one returns the existing id without
allocating, and insertion preserves canonicity. -/
theorem primop_dedup (f : Function) (h : PrimopsCanonical f) :
    (∀ p q (hp : p < f.primops.length) (hq : q < f.primops.length),
        (f.primops.get ⟨p, hp⟩).op = (f.primops.get ⟨q, hq⟩).op →
        (f.primops.get ⟨p, hp⟩).reads = (f.primops.get ⟨q, hq⟩).reads →
        p = q)
    ∧ (∀ d : PrimOpData, d ∈ f.primops →
        (f.primops_push d).2 = f
        ∧ (f.primops_push d).2.primops.getD (f.primops_push d).1 default = d)
    ∧ ∀ d : PrimOpData, PrimopsCanonical (f.primops_push d).2 := by
  refine ⟨?_, ?_, ?_⟩
  · intro p q hp hq hop hreads
    have e1 : f.primops.get ⟨p, hp⟩
        = ⟨(f.primops.get ⟨p, hp⟩).op, (f.primops.get ⟨p, hp⟩).reads⟩ := rfl
    have e2 : f.primops.get ⟨q, hq⟩
        = ⟨(f.primops.get ⟨q, hq⟩).op, (f.primops.get ⟨q, hq⟩).reads⟩ := rfl
    have hEq : f.primops.get ⟨p, hp⟩ = f.primops.get ⟨q, hq⟩ := by
      rw [e1, e2, hop, hreads]
    have := (List.nodup_iff_injective_get.mp h) hEq
    exact congrArg Fin.val this
  · intro d hd
    obtain ⟨i, hi⟩ := dedupIdx_isSome_of_mem hd
    constructor
    · simp only [Function.primops_push, dedupPush_of_idx_some hi]
    · simp only [Function.primops_push, dedupPush_of_idx_some hi]
      exact dedupIdx_getD hi
  · intro d
    unfold PrimopsCanonical Function.primops_push dedupPush
    cases hidx : dedupIdx f.primops d with
    | some i => exact h
    | none =>
      simp only
      exact List.Nodup.append h (List.nodup_singleton d)
        (by
          intro a ha hb
          rw [List.mem_singleton.mp hb] at ha
          exact dedupIdx_none_not_mem hidx ha)

theorem primop_dedup_witness :
    (sampleFun.primops_push ⟨.Tuple, [3]⟩).2 = sampleFun
    ∧ (sampleFun.primops_push ⟨.Tuple, [3]⟩).2.primops.getD
        (sampleFun.primops_push ⟨.Tuple, [3]⟩).1 default = ⟨.Tuple, [3]⟩ :=
  (primop_dedup sampleFun
      (by show sampleFun.primops.Nodup; decide)).2.1 ⟨.Tuple, [3]⟩ (by decide)

theorem mem_oneStepBlocks {f : Function} {b s : Nat} :
    s ∈ Function.oneStepBlocks f b ↔
      ∃ v ∈ Function.blockNestedValues f b, f.value_kind v = .Block s := by
  unfold Function.oneStepBlocks
  simp only [Finset.mem_biUnion]
  constructor
  · rintro ⟨v, hv, hs⟩
    refine ⟨v, hv, ?_⟩
    cases hk : f.value_kind v with
    | Block t =>
      rw [hk] at hs
      simp only [Finset.mem_singleton] at hs
      rw [hs]
    | Argument b' n =>
      rw [hk] at hs
      simp at hs
    | Const c =>
      rw [hk] at hs
      simp at hs
    | PrimOp p =>
      rw [hk] at hs
      simp at hs
  · rintro ⟨v, hv, hk⟩
    refine ⟨v, hv, ?_⟩
    rw [hk]
    simp

theorem graph_validate_block_iff (f : Function) (b : Block) :
    Function.graph_validate_block f b = true ↔
      ((f.blocks.getD b default).successors = Function.oneStepBlocks f b
       ∧ ∀ s ∈ Function.oneStepBlocks f b,
           b ∈ (f.blocks.getD s default).predecessors) := by
  unfold Function.graph_validate_block
  rw [Bool.and_eq_true, decide_eq_true_iff, decide_eq_true_iff]
  constructor
  · rintro ⟨hall, hcard⟩
    have hchecks : ∀ s ∈ Function.oneStepBlocks f b,
        s ∈ (f.blocks.getD b default).successors
        ∧ b ∈ (f.blocks.getD s default).predecessors := by
      intro s hs
      obtain ⟨v, hv, hk⟩ := mem_oneStepBlocks.mp hs
      have hc := hall v hv
      unfold Function.blockCheck at hc
      rw [hk] at hc
      simp only [Bool.and_eq_true, decide_eq_true_iff] at hc
      exact hc
    have hsub : Function.oneStepBlocks f b
        ⊆ (f.blocks.getD b default).successors :=
      fun s hs => (hchecks s hs).1
    exact ⟨(Finset.eq_of_subset_of_card_le hsub (le_of_eq hcard)).symm,
      fun s hs => (hchecks s hs).2⟩
  · rintro ⟨heq, hpred⟩
    refine ⟨?_, by rw [heq]⟩
    intro v hv
    unfold Function.blockCheck
    cases hk : f.value_kind v with
    | Block s =>
      have hs : s ∈ Function.oneStepBlocks f b :=
        mem_oneStepBlocks.mpr ⟨v, hv, hk⟩
      have h1 : s ∈ (f.blocks.getD b default).successors := heq ▸ hs
      simp only [Bool.and_eq_true, decide_eq_true_iff]
      exact ⟨h1, hpred s hs⟩
    | Argument b' n => rfl
    | Const c => rfl
    | PrimOp p => rfl

/-- C1 (amended): `graph_validate_global()` succeeds if and only if, for
every block, every `Block`-valued operand reachable through the block's
terminator reads is in the block's `successors`, the block is in each such
successor's `predecessors`, and the `successors` set has no extra entries
(it is exactly the one-step set).  The `predecessors` sets may carry extra
entries: the validator only checks them for membership. -/
theorem graph_validate_global_iff (f : Function) :
    Function.graph_validate_global f = true ↔
      ∀ b < f.blocks.length,
        (f.blocks.getD b default).successors = Function.oneStepBlocks f b
        ∧ ∀ s ∈ Function.oneStepBlocks f b,
            b ∈ (f.blocks.getD s default).predecessors := by
  unfold Function.graph_validate_global
  simp only [List.all_eq_true, List.mem_range]
  constructor
  · intro h b hb
    exact (graph_validate_block_iff f b).mp (h b hb)
  · intro h b hb
    exact (graph_validate_block_iff f b).mpr (h b hb)

/-- C1 counterexample: `cexFun` passes `graph_validate_global` although
block 1's `predecessors` set `{0, 2}` is not exactly the set of blocks
that reach block 1 by a one-step terminator read (only block 0 does), so
the claimed "no extra entries in either set" equivalence fails. -/
theorem graph_validate_global_cex :
    Function.graph_validate_global cexFun = true
    ∧ ¬ invariant1_claimed cexFun := by
  constructor
  · decide
  · unfold invariant1_claimed
    decide

theorem processed_foldl (trees : List Nat) (l acc : List Nat) :
    l.foldl (fun acc block => if block ∈ trees then acc ++ [block] else acc) acc
      = acc ++ l.filter (fun block => decide (block ∈ trees)) := by
  induction l generalizing acc with
  | nil => simp
  | cons b l ih =>
    simp only [List.foldl_cons, List.filter_cons]
    by_cases hb : b ∈ trees
    · simp [hb, ih]
    · simp [hb, ih]

/-- C3 (amended): `simplify_cfg` processes the discovered chain targets in
DFS *post-order* of the live-block graph — the order in which
`dfs_post_order_iter` emits blocks, deeper blocks first, so inner chains
collapse before outer ones — i.e. the processing sequence is the
post-order restricted to tree targets. -/
theorem simplify_processed_targets_post_order (g : BlockGraph)
    (trees : List Nat) :
    simplify_processed_targets g trees
      = (dfs_post_order g).filter (fun block => decide (block ∈ trees)) := by
  unfold simplify_processed_targets
  rw [processed_foldl]
  simp

/-- C3 counterexample: on the concrete live-block graph whose entry
branches to the two chain targets 1 and 2, the pass processes the targets
in the sequence `[1, 2]` (DFS post-order), which differs from the
reverse-post-order restriction `[2, 1]`. -/
theorem simplify_processed_targets_cex :
    simplify_processed_targets cexGraph cexTrees = [1, 2]
    ∧ (reverse_post_order cexGraph).filter
        (fun block => decide (block ∈ cexTrees)) = [2, 1]
    ∧ simplify_processed_targets cexGraph cexTrees
      ≠ (reverse_post_order cexGraph).filter
          (fun block => decide (block ∈ cexTrees)) :=
  ⟨by decide, by decide, by decide⟩

end Eir
